import Mathlib

/-!
Verification of the image-binarization service in `src/src/main.rs`
(keejkrej/compvis-rust).

The embedding covers:
* the multipart ingestion loop of `process_image` (fields, chunks, filename);
* the format-inference and response-assembly logic of `process_image`;
* a file-lifecycle model of the temporary files `process_image` creates;
* base64 encoding/decoding for the `processed_image_base64` data URL;
* the Otsu threshold solver and the binarizer.  These two are the crate
  functions `imageproc::contrast::otsu_level` and
  `imageproc::contrast::threshold`, whose sources are not part of this
  repository; they are modelled from the spec (sections 4.4 and 4.5).

Bytes are modelled as `Nat` values below 256; the `f64` threshold value
returned by `process_image_cv` is modelled as a rational, which is exact
for the integer range [0,255] that the threshold inhabits.
-/

namespace CompvisRust

/-! ## Format inference and response fields (main.rs lines 139-143, 196-200) -/

/-- Model of Rust `char` lowercasing restricted to ASCII.  The Rust method
`str::to_lowercase` performs full Unicode lowercasing, but on the ASCII
range (the only range that can produce the ASCII characters of `".png"`)
it coincides with this map: no non-ASCII character lowercases to `'p'`,
`'n'`, `'g'` or `'.'`. -/
def char_to_lowercase (c : Char) : Char :=
  if 'A' ≤ c ∧ c ≤ 'Z' then Char.ofNat (c.toNat + 32) else c

/-- Model of `original_filename.to_lowercase()` (main.rs line 139). -/
def to_lowercase (s : String) : String :=
  String.mk (s.data.map char_to_lowercase)

/-- Model of `str::ends_with` (main.rs line 139): suffix test on the
character sequence. -/
def ends_with (s suf : String) : Bool :=
  List.isSuffixOf suf.data s.data

/-- Model of main.rs lines 139-143: the output extension is ".png" exactly
when the declared original filename, lowercased, ends with ".png";
otherwise it is ".jpg".  When no filename was supplied,
`original_filename` keeps its initial value `""` (main.rs line 59). -/
def output_extension (original_filename : String) : String :=
  if ends_with (to_lowercase original_filename) ".png" then ".png" else ".jpg"

/-- Model of main.rs line 197: mime type chosen from the output extension. -/
def mime_type (ext : String) : String :=
  if ext = ".png" then "image/png" else "image/jpeg"

/-- Model of main.rs line 200: the reported output filename is
`processed_<uuid>.jpg`, independent of the inferred format. -/
def output_filename (uuid : String) : String :=
  "processed_" ++ uuid ++ ".jpg"

/-- Model of main.rs line 198: the data URL packaging of the encoded bytes. -/
def data_url (mime : String) (payload : String) : String :=
  "data:" ++ mime ++ ";base64," ++ payload

/-! ## Base64 (main.rs line 196, `general_purpose::STANDARD.encode`) -/

/-- The standard base64 alphabet used by `general_purpose::STANDARD`. -/
def b64_alphabet : List Char :=
  "ABCDEFGHIJKLMNOPQRSTUVWXYZabcdefghijklmnopqrstuvwxyz0123456789+/".data

/-- The alphabet character for a 6-bit value. -/
def b64_char (n : Nat) : Char := b64_alphabet.getD n 'A'

/-- The 6-bit value of an alphabet character, `none` for padding and any
other character. -/
def b64_index (c : Char) : Option Nat := b64_alphabet.findIdx? (fun d => d == c)

/-- Standard base64 with padding, as produced by
`general_purpose::STANDARD.encode` (main.rs line 196): bytes are taken
three at a time; a final group of one or two bytes is padded with `'='`. -/
def b64_encode : List Nat → List Char
  | [] => []
  | [a] => [b64_char (a / 4), b64_char (a % 4 * 16), '=', '=']
  | [a, b] => [b64_char (a / 4), b64_char (a % 4 * 16 + b / 16), b64_char (b % 16 * 4), '=']
  | a :: b :: c :: rest =>
      b64_char (a / 4) :: b64_char (a % 4 * 16 + b / 16) ::
        b64_char (b % 16 * 4 + c / 64) :: b64_char (c % 64) :: b64_encode rest

/-- Standard base64 decoding with padding: quadruples of alphabet
characters yield three bytes; a final `"xx=="` quadruple yields one byte
and a final `"xxx="` quadruple two. -/
def b64_decode : List Char → Option (List Nat)
  | [] => some []
  | c1 :: c2 :: c3 :: c4 :: rest =>
      match b64_index c1, b64_index c2 with
      | some a, some b =>
        if c3 = '=' then
          if c4 = '=' ∧ rest = [] then some [a * 4 + b / 16] else none
        else
          match b64_index c3 with
          | some c =>
            if c4 = '=' then
              if rest = [] then some [a * 4 + b / 16, b % 16 * 16 + c / 4] else none
            else
              match b64_index c4 with
              | some d =>
                match b64_decode rest with
                | some tl =>
                    some ((a * 4 + b / 16) :: (b % 16 * 16 + c / 4) :: (c % 4 * 64 + d) :: tl)
                | none => none
              | none => none
          | none => none
      | _, _ => none
  | _ => none

/-- Model of main.rs lines 196-198: base64-encode the processed image
bytes and wrap them in the self-describing data URL. -/
def processed_image_base64 (mime : String) (processed_image_data : List Nat) : String :=
  data_url mime (String.mk (b64_encode processed_image_data))

/-! ## The binarizer (main.rs line 226) -/

/-- A grayscale image: width, height, and row-major 8-bit pixel data. -/
structure GrayImage where
  width : Nat
  height : Nat
  data : List Nat

/-- Modelled from the spec: `imageproc::contrast::threshold` (called at
main.rs line 226) is a crate function whose source is not part of this
repository.  Spec section 4.5: every pixel strictly greater than the
threshold becomes 255; every pixel at or below becomes 0; the output has
identical dimensions. -/
def threshold (img : GrayImage) (thresh : Nat) : GrayImage :=
  { width := img.width
    height := img.height
    data := img.data.map (fun p => if p > thresh then 255 else 0) }

/-! ## The Otsu threshold solver (main.rs line 222)

`imageproc::contrast::otsu_level` is a crate function whose source is not
part of this repository; the following definitions are modelled from the
spec, section 4.4: for each candidate split level t in [0,255] the 256
histogram bins are split into a background class [0,t] and a foreground
class (t,255]; the between-class variance is
weight_bg × weight_fg × (mean_bg − mean_fg)², with a class of zero
population contributing zero variance; the returned level is the t
maximizing the between-class variance, ties broken towards the smallest t.
The arithmetic is modelled exactly, over the rationals. -/

/-- A 256-bin intensity histogram. -/
abbrev Hist := Fin 256 → Nat

/-- Total pixel population of the histogram. -/
def total_count (h : Hist) : Nat := ∑ i : Fin 256, h i

/-- Population of the background class [0,t]. -/
def class_count_bg (h : Hist) (t : Nat) : Nat :=
  ∑ i : Fin 256, if i.val ≤ t then h i else 0

/-- Population of the foreground class (t,255]. -/
def class_count_fg (h : Hist) (t : Nat) : Nat :=
  ∑ i : Fin 256, if t < i.val then h i else 0

/-- Total intensity of the background class [0,t]. -/
def class_sum_bg (h : Hist) (t : Nat) : Nat :=
  ∑ i : Fin 256, if i.val ≤ t then i.val * h i else 0

/-- Total intensity of the foreground class (t,255]. -/
def class_sum_fg (h : Hist) (t : Nat) : Nat :=
  ∑ i : Fin 256, if t < i.val then i.val * h i else 0

/-- Modelled from the spec (section 4.4): between-class variance
weight_bg × weight_fg × (mean_bg − mean_fg)² at split level t, zero when
either class has zero population. -/
def between_class_variance (h : Hist) (t : Nat) : ℚ :=
  if class_count_bg h t = 0 ∨ class_count_fg h t = 0 then 0
  else
    (class_count_bg h t : ℚ) / (total_count h : ℚ) *
      ((class_count_fg h t : ℚ) / (total_count h : ℚ)) *
      ((class_sum_bg h t : ℚ) / (class_count_bg h t : ℚ) -
        (class_sum_fg h t : ℚ) / (class_count_fg h t : ℚ)) ^ 2

/-- Left-to-right scan for the first maximizer of `f` on `[0, n)`,
starting from candidate 0; a later level replaces the current best only
when its value is strictly larger, so ties keep the smallest level. -/
def arg_best (f : Nat → ℚ) (n : Nat) : Nat :=
  (List.range n).foldl (fun best t => if f best < f t then t else best) 0

/-- Modelled from the spec: `imageproc::contrast::otsu_level` (called at
main.rs line 222) returns the level in [0,255] maximizing the
between-class variance, the smallest such level on ties. -/
def otsu_level (h : Hist) : Nat :=
  arg_best (between_class_variance h) 256

/-- Model of main.rs line 232, `Ok(threshold_val as f64)`: the solved
level widened to floating point.  The widening of an integer in [0,255]
to `f64` is exact, so it is modelled by the exact embedding into ℚ. -/
def threshold_value (h : Hist) : ℚ := (otsu_level h : ℚ)

/-- A histogram whose entire mass lies in the single bin `b`. -/
def single_bin (b n : Nat) : Hist := fun i => if i.val = b then n else 0

/-- The histogram of the 2×2 image with pixels [0,0,255,255] (the first
concrete scenario of the spec, section 8). -/
def hist_extremes : Hist := fun i => if i.val = 0 then 2 else if i.val = 255 then 2 else 0

/-! ## Multipart ingestion (main.rs lines 45-124) -/

/-- One field of the multipart body: its name (`""` when absent, modelling
`field.name().unwrap_or_default()`), its optional declared filename, and
its byte chunks in arrival order. -/
structure MultipartField where
  name : String
  file_name : Option String
  chunks : List (List Nat)

/-- The request-local state built by the field loop: the bytes written to
the raw temporary file, the recorded original filename (initially `""`),
and whether an "image" field was seen. -/
structure IngestState where
  bytes : List Nat
  original_filename : String
  image_found : Bool

/-- Model of one iteration of the field loop (main.rs lines 62-114): a
field named "image" sets `image_found`, overwrites `original_filename`
when the field declares a filename, and appends all its chunks to the
temporary file; any other field is ignored. -/
def process_field (st : IngestState) (f : MultipartField) : IngestState :=
  if f.name = "image" then
    { bytes := st.bytes ++ f.chunks.flatten
      original_filename :=
        match f.file_name with
        | some fn => fn
        | none => st.original_filename
      image_found := true }
  else st

/-- Model of the whole field loop, starting from the empty state. -/
def ingest_fields (fields : List MultipartField) : IngestState :=
  fields.foldl process_field ⟨[], "", false⟩

/-- The JSON error envelope (main.rs lines 32-36). -/
structure ErrorResponse where
  success : Bool
  error : String

/-- Model of the no-image check (main.rs lines 116-124): without an
"image" field the handler returns HTTP 400 with an error envelope. -/
def check_image_found (st : IngestState) :
    Except (Nat × ErrorResponse) IngestState :=
  if st.image_found then .ok st
  else .error (400, ⟨false, "No image field found in request"⟩)

/-- The ingestion phase of `process_image`: run the field loop, then the
no-image check. -/
def process_image_multipart (fields : List MultipartField) :
    Except (Nat × ErrorResponse) IngestState :=
  check_image_found (ingest_fields fields)

/-- The fields named "image", in arrival order. -/
def image_fields (fields : List MultipartField) : List MultipartField :=
  fields.filter (fun f => f.name == "image")

/-- The filename declared by the last "image" field that declared one,
`""` when none did. -/
def last_declared_filename (fields : List MultipartField) : String :=
  match fields.reverse.find? (fun f => f.name == "image" && f.file_name.isSome) with
  | some f => f.file_name.getD ""
  | none => ""

/-! ## Temporary-file lifecycle (main.rs lines 46, 146-163, 184, 229)

`process_image` creates three on-disk objects: the raw upload copy (a
`NamedTempFile`, unlinked by its RAII drop when the handler returns), the
extension-carrying input copy (`std::fs::copy` to
`temp_dir/input_<uuid><ext>`), and the encoded output
(`binary_img.save` to `temp_dir/processed_<uuid><ext>`).  main.rs contains
no `std::fs::remove_file` call, so only the `NamedTempFile` is ever
unlinked. -/

/-- A file-system operation: creating or unlinking a path. -/
inductive FsOp where
  | create (path : String)
  | delete (path : String)

/-- Apply one operation to the list of live (reachable) paths. -/
def apply_fs_op (live : List String) (op : FsOp) : List String :=
  match op with
  | .create p => if p ∈ live then live else live ++ [p]
  | .delete p => live.filter (fun q => q != p)

/-- The paths still on disk after a sequence of operations. -/
def remaining_files (ops : List FsOp) : List String :=
  ops.foldl apply_fs_op []

/-- The file operations a successful `process_image` request performs, in
program order: `NamedTempFile::new` (line 46), `std::fs::copy` to the
extension-carrying input path (line 150), `binary_img.save` to the output
path (line 229), and the `NamedTempFile` RAII drop at return.  There are
no other deletions anywhere in `process_image`. -/
def process_image_fs_ops (tmp uuid_in uuid_out ext : String) : List FsOp :=
  [ .create tmp,
    .create ("input_" ++ uuid_in ++ ext),
    .create ("processed_" ++ uuid_out ++ ext),
    .delete tmp ]

/-! ## Theorems -/

/-- C3: For every declared filename, the format path and mime type are a
function of that filename alone: a filename whose lowercasing ends with
".png" yields the PNG extension and mime "image/png"; any other filename
yields the JPEG extension and mime "image/jpeg"; and when no filename was
supplied (the field keeps its initial value ""), the JPEG path is taken. -/
theorem format_inference_by_filename (f : String) :
    (ends_with (to_lowercase f) ".png" = true →
      output_extension f = ".png" ∧ mime_type (output_extension f) = "image/png") ∧
    (ends_with (to_lowercase f) ".png" = false →
      output_extension f = ".jpg" ∧ mime_type (output_extension f) = "image/jpeg") ∧
    mime_type (output_extension "") = "image/jpeg" := by
  refine ⟨fun h => ?_, fun h => ?_, by decide⟩
  · simp [output_extension, mime_type, h]
  · simp [output_extension, mime_type, h]

/-- Witness for C3 at concrete filenames. -/
theorem format_inference_by_filename_witness :
    (output_extension "Photo.PNG" = ".png" ∧
      mime_type (output_extension "Photo.PNG") = "image/png") ∧
    (output_extension "photo.jpeg" = ".jpg" ∧
      mime_type (output_extension "photo.jpeg") = "image/jpeg") :=
  ⟨(format_inference_by_filename "Photo.PNG").1 (by decide),
   (format_inference_by_filename "photo.jpeg").2.1 (by decide)⟩

/-- C9: The reported output filename is `processed_<uuid>.jpg` for every
uuid: it always ends in ".jpg" and never in ".png", even though the mime
type for the ".png" extension is "image/png" — the filename does not
depend on the inferred format tag at all. -/
theorem output_filename_always_jpg (uuid : String) :
    output_filename uuid = ("processed_" ++ uuid) ++ ".jpg" ∧
    ".jpg".data <:+ (output_filename uuid).data ∧
    ¬ ".png".data <:+ (output_filename uuid).data ∧
    mime_type ".png" = "image/png" := by
  have hdata : (output_filename uuid).data =
      ("processed_" ++ uuid).data ++ ['.', 'j', 'p', 'g'] := by
    simp [output_filename, String.data_append]
  refine ⟨rfl, ⟨("processed_" ++ uuid).data, by rw [hdata]⟩, ?_, by decide⟩
  rintro ⟨t, ht⟩
  have h2 : t ++ ['.', 'p', 'n', 'g'] =
      ("processed_" ++ uuid).data ++ ['.', 'j', 'p', 'g'] := by
    rw [← hdata, ← ht]
  have hrev := congrArg List.reverse h2
  simp [List.reverse_append] at hrev

/-- Witness for C9 at a concrete uuid. -/
theorem output_filename_always_jpg_witness :
    ".jpg".data <:+ (output_filename "123e4567").data ∧
    mime_type ".png" = "image/png" :=
  ⟨(output_filename_always_jpg "123e4567").2.1,
   (output_filename_always_jpg "123e4567").2.2.2⟩

/-- C2: For every grayscale buffer and every threshold `t`, the binarizer
output has the same dimensions and pixel count as the input, every output
pixel is exactly 0 or 255, and a pixel strictly greater than `t` maps to
255 while a pixel at or below `t` maps to 0. -/
theorem threshold_binarizes (img : GrayImage) (t : Nat) :
    (threshold img t).width = img.width ∧
    (threshold img t).height = img.height ∧
    (threshold img t).data.length = img.data.length ∧
    (∀ q ∈ (threshold img t).data, q = 0 ∨ q = 255) ∧
    (∀ (i p : Nat), img.data[i]? = some p →
      (p > t → (threshold img t).data[i]? = some 255) ∧
      (p ≤ t → (threshold img t).data[i]? = some 0)) := by
  refine ⟨rfl, rfl, by simp [threshold], ?_, ?_⟩
  · intro q hq
    rcases List.mem_map.mp hq with ⟨p, _, hpq⟩
    by_cases hc : p > t
    · right; rw [← hpq]; simp [hc]
    · left; rw [← hpq]; simp [hc]
  · intro i p hp
    constructor
    · intro hgt
      simp [threshold, List.getElem?_map, hp, hgt]
    · intro hle
      simp [threshold, List.getElem?_map, hp, Nat.not_lt.mpr hle]

/-- Witness for C2 at a concrete 2×2 buffer and threshold 128. -/
theorem threshold_binarizes_witness :
    (10 ≤ 128 → (threshold ⟨2, 2, [10, 200, 128, 129]⟩ 128).data[0]? = some 0) ∧
    (129 > 128 → (threshold ⟨2, 2, [10, 200, 128, 129]⟩ 128).data[3]? = some 255) ∧
    (threshold ⟨2, 2, [10, 200, 128, 129]⟩ 128).data.length = 4 :=
  ⟨fun h => ((threshold_binarizes ⟨2, 2, [10, 200, 128, 129]⟩ 128).2.2.2.2 0 10 rfl).2 h,
   fun h => ((threshold_binarizes ⟨2, 2, [10, 200, 128, 129]⟩ 128).2.2.2.2 3 129 rfl).1 h,
   (threshold_binarizes ⟨2, 2, [10, 200, 128, 129]⟩ 128).2.2.1.trans rfl⟩

theorem foldl_process_field_bytes (l : List MultipartField) :
    ∀ st : IngestState, (l.foldl process_field st).bytes =
      st.bytes ++ ((image_fields l).map (fun f => f.chunks.flatten)).flatten := by
  induction l with
  | nil => intro st; simp [image_fields]
  | cons a l ih =>
    intro st
    rw [List.foldl_cons, ih]
    by_cases ha : a.name = "image"
    · simp [image_fields, process_field, ha, List.filter_cons]
    · simp [image_fields, process_field, ha, List.filter_cons]

theorem foldl_process_field_found (l : List MultipartField) :
    ∀ st : IngestState, (l.foldl process_field st).image_found =
      (st.image_found || l.any (fun f => f.name == "image")) := by
  induction l with
  | nil => intro st; simp
  | cons a l ih =>
    intro st
    rw [List.foldl_cons, ih]
    by_cases ha : a.name = "image"
    · simp [process_field, ha]
    · have hbeq : (a.name == "image") = false := beq_eq_false_iff_ne.mpr ha
      simp [process_field, ha, hbeq]

theorem foldl_process_field_filename (l : List MultipartField) :
    ∀ st : IngestState, (l.foldl process_field st).original_filename =
      match l.reverse.find? (fun f => f.name == "image" && f.file_name.isSome) with
      | some f => f.file_name.getD ""
      | none => st.original_filename := by
  induction l with
  | nil => intro st; simp
  | cons a l ih =>
    intro st
    rw [List.foldl_cons, ih]
    rw [List.reverse_cons, List.find?_append]
    rcases hfind : l.reverse.find? (fun f => f.name == "image" && f.file_name.isSome) with _ | f
    · rw [hfind]
      by_cases ha : a.name = "image"
      · rcases hfn : a.file_name with _ | fn
        · simp [process_field, ha, hfn, List.find?, Option.or]
        · simp [process_field, ha, hfn, List.find?, Option.or]
      · have hbeq : (a.name == "image") = false := beq_eq_false_iff_ne.mpr ha
        simp [process_field, ha, hbeq, List.find?, Option.or]
    · rw [hfind]
      simp [Option.or]

/-- C7: If the multipart body never supplies a field named "image", the
ingestion phase fails with the `NoImageField` error: HTTP status 400 and
an envelope with `success = false` and the "No image field found in
request" message, and no success value is produced. -/
theorem no_image_field_yields_400 (fields : List MultipartField)
    (h : ∀ f ∈ fields, f.name ≠ "image") :
    process_image_multipart fields =
      .error (400, ⟨false, "No image field found in request"⟩) := by
  have hfound : (ingest_fields fields).image_found = false := by
    rw [ingest_fields, foldl_process_field_found]
    simp only [Bool.false_or, List.any_eq_false]
    intro f hf
    simp [h f hf]
  rw [process_image_multipart, check_image_found, hfound]
  rfl

/-- Witness for C7 at a concrete body with no "image" field. -/
theorem no_image_field_yields_400_witness :
    process_image_multipart [⟨"file", some "a.png", [[1, 2, 3]]⟩] =
      .error (400, ⟨false, "No image field found in request"⟩) :=
  no_image_field_yields_400 [⟨"file", some "a.png", [[1, 2, 3]]⟩] (by decide)

/-- C10: With at least two fields named "image" the ingestion phase does
not error: the chunks of all "image" fields are appended in arrival order
into the single stored byte sequence, and the recorded original filename
is that of the last "image" field that declared one. -/
theorem multiple_image_fields_concatenate (fields : List MultipartField)
    (h : 2 ≤ (image_fields fields).length) :
    process_image_multipart fields = .ok (ingest_fields fields) ∧
    (ingest_fields fields).bytes =
      ((image_fields fields).map (fun f => f.chunks.flatten)).flatten ∧
    (ingest_fields fields).original_filename = last_declared_filename fields := by
  have hbytes := foldl_process_field_bytes fields ⟨[], "", false⟩
  have hfn := foldl_process_field_filename fields ⟨[], "", false⟩
  have hfound : (ingest_fields fields).image_found = true := by
    rw [ingest_fields, foldl_process_field_found]
    rcases hif : image_fields fields with _ | ⟨f, rest⟩
    · rw [hif] at h; simp at h
    · have hmem : f ∈ image_fields fields := by rw [hif]; exact List.mem_cons_self f rest
      rcases List.mem_filter.mp hmem with ⟨hmemf, hname⟩
      simp only [Bool.false_or, List.any_eq_true]
      exact ⟨f, hmemf, hname⟩
  refine ⟨?_, by simpa [ingest_fields] using hbytes, ?_⟩
  · rw [process_image_multipart, check_image_found, hfound]
    rfl
  · rw [ingest_fields, hfn, last_declared_filename]

/-- Witness for C10 at a concrete two-image-field body. -/
theorem multiple_image_fields_concatenate_witness :
    process_image_multipart
        [⟨"image", some "a.png", [[1], [2, 3]]⟩, ⟨"image", some "b.jpg", [[4]]⟩] =
      .ok (ingest_fields
        [⟨"image", some "a.png", [[1], [2, 3]]⟩, ⟨"image", some "b.jpg", [[4]]⟩]) ∧
    (ingest_fields
        [⟨"image", some "a.png", [[1], [2, 3]]⟩, ⟨"image", some "b.jpg", [[4]]⟩]).bytes =
      [1, 2, 3, 4] ∧
    (ingest_fields
        [⟨"image", some "a.png", [[1], [2, 3]]⟩, ⟨"image", some "b.jpg", [[4]]⟩]).original_filename =
      "b.jpg" := by
  have h := multiple_image_fields_concatenate
    [⟨"image", some "a.png", [[1], [2, 3]]⟩, ⟨"image", some "b.jpg", [[4]]⟩] (by decide)
  exact ⟨h.1, h.2.1.trans (by decide), h.2.2.trans (by decide)⟩

/-- C4 (refuted): after a successful request with concrete temp-file
names, the extension-carrying input copy and the encoded output file are
still on disk — the claim that every temporary object is unlinked fails.
Only the raw upload copy (the `NamedTempFile`) is removed. -/
theorem temp_files_remain_after_success :
    remaining_files (process_image_fs_ops "raw_tmp_000" "u1" "u2" ".jpg") =
      ["input_u1.jpg", "processed_u2.jpg"] ∧
    remaining_files (process_image_fs_ops "raw_tmp_000" "u1" "u2" ".jpg") ≠ [] := by
  constructor <;> decide

theorem b64_index_b64_char_fin : ∀ n : Fin 64, b64_index (b64_char n.val) = some n.val := by
  decide

theorem b64_index_b64_char (n : Nat) (h : n < 64) : b64_index (b64_char n) = some n :=
  b64_index_b64_char_fin ⟨n, h⟩

theorem b64_char_ne_pad_fin : ∀ n : Fin 64, b64_char n.val ≠ '=' := by decide

theorem b64_char_ne_pad (n : Nat) (h : n < 64) : b64_char n ≠ '=' :=
  b64_char_ne_pad_fin ⟨n, h⟩

theorem b64_decode_encode_len :
    ∀ (n : Nat) (l : List Nat), l.length ≤ n → (∀ x ∈ l, x < 256) →
      b64_decode (b64_encode l) = some l := by
  intro n
  induction n with
  | zero =>
    intro l hl _
    rw [List.length_eq_zero.mp (Nat.le_zero.mp hl)]
    rfl
  | succ n ih =>
    intro l hl hb
    match l with
    | [] => rfl
    | [a] =>
      have ha : a < 256 := hb a (by simp)
      have i1 := b64_index_b64_char (a / 4) (by omega)
      have i2 := b64_index_b64_char (a % 4 * 16) (by omega)
      simp only [b64_encode, b64_decode, i1, i2, if_pos rfl, and_self, if_true]
      simp only [if_true, ite_true, Option.some.injEq, List.cons.injEq, and_true]
      omega
    | [a, b] =>
      have ha : a < 256 := hb a (by simp)
      have hbb : b < 256 := hb b (by simp)
      have i1 := b64_index_b64_char (a / 4) (by omega)
      have i2 := b64_index_b64_char (a % 4 * 16 + b / 16) (by omega)
      have i3 := b64_index_b64_char (b % 16 * 4) (by omega)
      have p3 := b64_char_ne_pad (b % 16 * 4) (by omega)
      simp only [b64_encode, b64_decode, i1, i2, i3, if_neg p3, if_pos rfl]
      simp only [if_true, ite_true, Option.some.injEq, List.cons.injEq, and_true]
      omega
    | a :: b :: c :: rest =>
      have ha : a < 256 := hb a (by simp)
      have hbb : b < 256 := hb b (by simp)
      have hc : c < 256 := hb c (by simp)
      have hrest : rest.length ≤ n := by simp [List.length_cons] at hl; omega
      have hrb : ∀ x ∈ rest, x < 256 := fun x hx => hb x (by simp [hx])
      have i1 := b64_index_b64_char (a / 4) (by omega)
      have i2 := b64_index_b64_char (a % 4 * 16 + b / 16) (by omega)
      have i3 := b64_index_b64_char (b % 16 * 4 + c / 64) (by omega)
      have i4 := b64_index_b64_char (c % 64) (by omega)
      have p3 := b64_char_ne_pad (b % 16 * 4 + c / 64) (by omega)
      have p4 := b64_char_ne_pad (c % 64) (by omega)
      have ihr := ih rest hrest hrb
      simp only [b64_encode, b64_decode, i1, i2, i3, i4, if_neg p3, if_neg p4, ihr]
      simp only [if_true, ite_true, Option.some.injEq, List.cons.injEq, and_true]
      refine ⟨by omega, by omega, by omega⟩

/-- Decoding inverts encoding for every byte list. -/
theorem b64_decode_encode (l : List Nat) (h : ∀ x ∈ l, x < 256) :
    b64_decode (b64_encode l) = some l :=
  b64_decode_encode_len l.length l (Nat.le_refl _) h

/-- C6: For every successful request, `processed_image_base64` has the
exact form `data:<mime>;base64,<payload>`, and base64-decoding the
payload (the part after that header) reproduces byte-for-byte the encoded
output bytes that were read from the codec output file. -/
theorem data_url_round_trip (mime : String) (bytes : List Nat)
    (h : ∀ x ∈ bytes, x < 256) :
    processed_image_base64 mime bytes =
      "data:" ++ mime ++ ";base64," ++ String.mk (b64_encode bytes) ∧
    b64_decode (String.mk (b64_encode bytes)).data = some bytes :=
  ⟨rfl, b64_decode_encode bytes h⟩

/-- Witness for C6 at a concrete byte sequence (a JPEG header). -/
theorem data_url_round_trip_witness :
    processed_image_base64 "image/jpeg" [255, 216, 255, 224] =
      "data:" ++ "image/jpeg" ++ ";base64," ++
        String.mk (b64_encode [255, 216, 255, 224]) ∧
    b64_decode (String.mk (b64_encode [255, 216, 255, 224])).data =
      some [255, 216, 255, 224] :=
  data_url_round_trip "image/jpeg" [255, 216, 255, 224] (by decide)

theorem arg_best_succ (f : Nat → ℚ) (n : Nat) :
    arg_best f (n + 1) = if f (arg_best f n) < f n then n else arg_best f n := by
  unfold arg_best
  rw [List.range_succ, List.foldl_append]
  rfl

theorem arg_best_bound (f : Nat → ℚ) : ∀ n, arg_best f n = 0 ∨ arg_best f n < n := by
  intro n
  induction n with
  | zero => left; rfl
  | succ n ih =>
    rw [arg_best_succ]
    by_cases hc : f (arg_best f n) < f n
    · right; rw [if_pos hc]; omega
    · rw [if_neg hc]
      rcases ih with h0 | hlt
      · left; exact h0
      · right; omega

theorem arg_best_le (f : Nat → ℚ) : ∀ n t, t < n → f t ≤ f (arg_best f n) := by
  intro n
  induction n with
  | zero => intro t ht; omega
  | succ n ih =>
    intro t ht
    rw [arg_best_succ]
    by_cases hc : f (arg_best f n) < f n
    · rw [if_pos hc]
      rcases Nat.lt_succ_iff_lt_or_eq.mp ht with h | h
      · exact le_of_lt (lt_of_le_of_lt (ih t h) hc)
      · rw [h]
    · rw [if_neg hc]
      rcases Nat.lt_succ_iff_lt_or_eq.mp ht with h | h
      · exact ih t h
      · rw [h]; exact le_of_not_lt hc

theorem arg_best_least (f : Nat → ℚ) : ∀ n t, t < arg_best f n → f t < f (arg_best f n) := by
  intro n
  induction n with
  | zero =>
    intro t ht
    rw [show arg_best f 0 = 0 from rfl] at ht
    omega
  | succ n ih =>
    intro t ht
    rw [arg_best_succ] at ht ⊢
    by_cases hc : f (arg_best f n) < f n
    · rw [if_pos hc] at ht ⊢
      exact lt_of_le_of_lt (arg_best_le f n t ht) hc
    · rw [if_neg hc] at ht ⊢
      exact ih t ht

theorem otsu_level_le_255 (h : Hist) : otsu_level h ≤ 255 := by
  rcases arg_best_bound (between_class_variance h) 256 with h0 | hlt
  · rw [otsu_level, h0]; omega
  · rw [otsu_level]; omega

/-- C1: For every histogram, the Otsu solver returns a level whose
between-class variance is at least that of every candidate level t in
[0,255], and among the levels attaining the maximum it returns the
smallest. -/
theorem otsu_level_maximizes (h : Hist) (t : Nat) (ht : t ≤ 255) :
    otsu_level h ≤ 255 ∧
    between_class_variance h t ≤ between_class_variance h (otsu_level h) ∧
    (between_class_variance h t = between_class_variance h (otsu_level h) →
      otsu_level h ≤ t) := by
  refine ⟨otsu_level_le_255 h, ?_, ?_⟩
  · exact arg_best_le (between_class_variance h) 256 t (by omega)
  · intro heq
    by_contra hgt
    push_neg at hgt
    have hlt := arg_best_least (between_class_variance h) 256 t hgt
    rw [otsu_level] at heq
    rw [heq] at hlt
    exact lt_irrefl _ hlt

/-- Witness for C1 at the bimodal histogram of the 2×2 image
[0,0,255,255] and candidate level 7. -/
theorem otsu_level_maximizes_witness :
    (7 ≤ 255) ∧
    (otsu_level hist_extremes ≤ 255 ∧
      between_class_variance hist_extremes 7 ≤
        between_class_variance hist_extremes (otsu_level hist_extremes) ∧
      (between_class_variance hist_extremes 7 =
          between_class_variance hist_extremes (otsu_level hist_extremes) →
        otsu_level hist_extremes ≤ 7)) :=
  ⟨by decide, otsu_level_maximizes hist_extremes 7 (by decide)⟩

theorem class_count_bg_single_bin (b n : Nat) (hb : b ≤ 255) (t : Nat) :
    class_count_bg (single_bin b n) t = if b ≤ t then n else 0 := by
  rw [class_count_bg]
  rw [Finset.sum_eq_single (⟨b, by omega⟩ : Fin 256)]
  · simp [single_bin]
  · intro i _ hi
    have : i.val ≠ b := fun hv => hi (Fin.ext hv)
    simp [single_bin, this]
  · intro hmem
    exact absurd (Finset.mem_univ _) hmem

theorem class_count_fg_single_bin (b n : Nat) (hb : b ≤ 255) (t : Nat) :
    class_count_fg (single_bin b n) t = if t < b then n else 0 := by
  rw [class_count_fg]
  rw [Finset.sum_eq_single (⟨b, by omega⟩ : Fin 256)]
  · simp [single_bin]
  · intro i _ hi
    have : i.val ≠ b := fun hv => hi (Fin.ext hv)
    simp [single_bin, this]
  · intro hmem
    exact absurd (Finset.mem_univ _) hmem

theorem single_bin_variance_zero (b n : Nat) (hb : b ≤ 255) (t : Nat) :
    between_class_variance (single_bin b n) t = 0 := by
  rw [between_class_variance]
  rcases le_or_lt b t with hle | hlt
  · rw [if_pos]
    right
    rw [class_count_fg_single_bin b n hb t, if_neg (by omega)]
  · rw [if_pos]
    left
    rw [class_count_bg_single_bin b n hb t, if_neg (by omega)]

/-- C5: For a histogram whose entire mass lies in the single bin `b` (a
uniform image), every candidate level has between-class variance zero (a
class with zero population contributes zero variance, with no division by
zero), and the solver returns level 0. -/
theorem otsu_level_single_bin (b n : Nat) (hb : b ≤ 255) (_hn : 0 < n) :
    otsu_level (single_bin b n) = 0 ∧
    ∀ t, between_class_variance (single_bin b n) t = 0 := by
  refine ⟨?_, single_bin_variance_zero b n hb⟩
  by_contra h0
  have hpos : 0 < otsu_level (single_bin b n) := Nat.pos_of_ne_zero h0
  have hlt := arg_best_least (between_class_variance (single_bin b n)) 256 0 hpos
  rw [single_bin_variance_zero b n hb 0] at hlt
  rw [show arg_best (between_class_variance (single_bin b n)) 256 =
      otsu_level (single_bin b n) from rfl] at hlt
  rw [single_bin_variance_zero b n hb _] at hlt
  exact lt_irrefl _ hlt

/-- Witness for C5 at the uniform all-128 histogram of a 10×10 image. -/
theorem otsu_level_single_bin_witness :
    (128 ≤ 255) ∧ (0 < 100) ∧
    otsu_level (single_bin 128 100) = 0 ∧
    between_class_variance (single_bin 128 100) 128 = 0 :=
  ⟨by decide, by decide,
   (otsu_level_single_bin 128 100 (by decide) (by decide)).1,
   (otsu_level_single_bin 128 100 (by decide) (by decide)).2 128⟩

/-- C8: For every input histogram, the solved threshold is an integer in
[0,255], and the value exposed to callers (the `as f64` widening,
modelled exactly in ℚ) equals that integer exactly: it is a nonnegative
rational with denominator 1. -/
theorem threshold_value_exact_integer (h : Hist) :
    ∃ n : Nat, otsu_level h = n ∧ n ≤ 255 ∧ threshold_value h = (n : ℚ) ∧
      (threshold_value h).den = 1 ∧ 0 ≤ threshold_value h :=
  ⟨otsu_level h, rfl, otsu_level_le_255 h, rfl,
   by rw [threshold_value]; exact Rat.den_natCast _,
   by rw [threshold_value]; exact Nat.cast_nonneg _⟩

end CompvisRust
